import Mathlib

/-!
Verification of `h11/_receivebuffer.py` (`ReceiveBuffer`).

The buffer stores a growable byte string `_data`, an absolute consumed
offset `_start`, an absolute search watermark `_looked_at` (a Python int,
which can go negative after `compress`), and the currently remembered
delimiter pattern `_delimiter`.

Bytes are modelled as `Nat`, byte strings as `List Nat`.  The regular
expressions the module uses (`b"\n\r?\n"` and `b"\r?\n"`, plus arbitrary
literal delimiters) live in the fragment "sequence of single bytes, each
either mandatory or optional"; `Atom`/`Pattern` model exactly that
fragment, with Python `re` leftmost/greedy-with-backtracking semantics.
`srcLen` is the length of the pattern's source byte string (`len(delimiter)`
in Python: an optional byte `c?` occupies two source bytes).
-/

set_option autoImplicit false

namespace H11

/-- One atom of a delimiter regex: a mandatory byte or an optional byte
(Python source `c` or `c?`). -/
inductive Atom where
  | char (c : Nat)
  | opt (c : Nat)
deriving DecidableEq, Repr

/-- A delimiter regex: a sequence of atoms. -/
abbrev Pattern := List Atom

/-- Length of the pattern's source byte string, `len(delimiter)` in Python:
a mandatory byte is one source byte, an optional byte is two (`c` and `?`). -/
def srcLen : Pattern → Nat
  | [] => 0
  | .char _ :: r => 1 + srcLen r
  | .opt _ :: r => 2 + srcLen r

/-- The module-level `default_delimiter = b"\n\r?\n"`. -/
def default_delimiter : Pattern := [.char 10, .opt 13, .char 10]

/-- The pattern of `line_delimiter_regex = re.compile(b"\r?\n")`. -/
def line_delimiter : Pattern := [.opt 13, .char 10]

/-- Python `re` matching of a pattern against a prefix of `bs`: returns the
length of the match, greedy on each optional byte with backtracking (exactly
the behaviour of `re` on this fragment; the MULTILINE flag is irrelevant
since the fragment has no anchors). -/
def reMatch : Pattern → List Nat → Option Nat
  | [], _ => some 0
  | .char _ :: _, [] => none
  | .char c :: r, b :: bs =>
      if b = c then (reMatch r bs).map (· + 1) else none
  | .opt _ :: r, [] => reMatch r []
  | .opt c :: r, b :: bs =>
      if b = c then
        match reMatch r bs with
        | some n => some (n + 1)
        | none => reMatch r (b :: bs)
      else reMatch r (b :: bs)

/-- Scan of `pat` over `data` trying positions `pos, pos+1, ...` (at most
`fuel` of them); returns the span `(i, e)` of the leftmost match.  This is
`next(regex.finditer(data, pos), None)` once `fuel = len(data) + 1 - pos`. -/
def findFromAux (pat : Pattern) (data : List Nat) : Nat → Nat → Option (Nat × Nat)
  | _, 0 => none
  | pos, fuel + 1 =>
      match reMatch pat (data.drop pos) with
      | some l => some (pos, pos + l)
      | none => findFromAux pat data (pos + 1) fuel

/-- Leftmost match of `pat` in `data` scanning from `pos`: Python's
`next(regex.finditer(data, pos), None)`, returning the match span.  CPython
clamps the start position into `[0, len(data)]` (`_sre` forces
`pos = len` when `pos > len`), so the positions tried are
`min(pos, len), …, len`. -/
def findFrom (pat : Pattern) (data : List Nat) (pos : Nat) : Option (Nat × Nat) :=
  findFromAux pat data (min pos data.length)
    (data.length + 1 - min pos data.length)

/-- Number of positions the scan of `findFromAux` tries (each position costs
one pattern-match attempt over at most `srcLen` bytes): the scanning work of
one `finditer` call. -/
def findFromAuxCost (pat : Pattern) (data : List Nat) : Nat → Nat → Nat
  | _, 0 => 0
  | pos, fuel + 1 =>
      match reMatch pat (data.drop pos) with
      | some _ => 1
      | none => 1 + findFromAuxCost pat data (pos + 1) fuel

/-- Python `regex.split(data)` for a pattern that cannot match the empty
string (true of `line_delimiter`): repeatedly cut at the leftmost match.
`fuel` bounds the recursion; `data.length + 1` always suffices because each
step removes at least one byte. -/
def reSplitAux (pat : Pattern) : Nat → List Nat → List (List Nat)
  | 0, data => [data]
  | fuel + 1, data =>
      match findFrom pat data 0 with
      | none => [data]
      | some (i, e) =>
          if i < e then data.take i :: reSplitAux pat fuel (data.drop e)
          else [data]

/-- Python `regex.split(data)` (for patterns with no empty match). -/
def reSplit (pat : Pattern) (data : List Nat) : List (List Nat) :=
  reSplitAux pat (data.length + 1) data

/-- The state of `ReceiveBuffer`: `_data` is the stored bytes, `_start` and
`_looked_at` are absolute offsets into `_data` (`_looked_at` is a Python
int and can become negative after `compress`), `_delimiter` is the
remembered delimiter source.  The unused `_looked_for` field of `__init__`
is omitted: no method ever reads it. -/
structure ReceiveBuffer where
  _data : List Nat
  _start : Nat
  _looked_at : Int
  _delimiter : Pattern
deriving DecidableEq, Repr

/-- `ReceiveBuffer.__init__`. -/
def ReceiveBuffer.init : ReceiveBuffer :=
  ⟨[], 0, 0, default_delimiter⟩

/-- `__bytes__` / the unconsumed region `self._data[self._start:]`. -/
def ReceiveBuffer.unconsumed (b : ReceiveBuffer) : List Nat :=
  b._data.drop b._start

/-- `__len__`: `len(self._data) - self._start`. -/
def ReceiveBuffer.pyLen (b : ReceiveBuffer) : Nat :=
  b._data.length - b._start

/-- `__iadd__`: `self._data += byteslike`. -/
def ReceiveBuffer.iadd (b : ReceiveBuffer) (chunk : List Nat) : ReceiveBuffer :=
  { b with _data := b._data ++ chunk }

/-- `compress`: if `self._start > len(self._data) // 2`, delete
`self._data[:self._start]`, subtract the old `_start` from `_looked_at`
(Python int subtraction: the result can be negative) and from `_start`. -/
def ReceiveBuffer.compress (b : ReceiveBuffer) : ReceiveBuffer :=
  if b._data.length / 2 < b._start then
    { _data := b._data.drop b._start
      _start := b._start - b._start
      _looked_at := b._looked_at - b._start
      _delimiter := b._delimiter }
  else b

/-- `maybe_extract_at_most`: `out = self._data[self._start : self._start + count]`;
if `out` is falsy (empty) return `None`, else advance `_start` by `len(out)`
and return `out`. -/
def maybe_extract_at_most (b : ReceiveBuffer) (count : Nat) :
    Option (List Nat) × ReceiveBuffer :=
  let out := (b._data.drop b._start).take count
  if out = [] then (none, b)
  else (some out, { b with _start := b._start + out.length })

/-- The position `finditer` starts from in `maybe_extract_until_delimiter`:
`max(self._start, self._looked_at - len(delimiter) + 1)` when the delimiter
is the remembered one, `self._start` otherwise.  The Python `max` is over
ints; the result is `≥ _start ≥ 0`, so `toNat` is exact. -/
def resumePos (b : ReceiveBuffer) (delim : Pattern) : Nat :=
  if delim = b._delimiter then
    (max (b._start : Int) (b._looked_at - srcLen delim + 1)).toNat
  else b._start

/-- `maybe_extract_until_delimiter`: search for the leftmost match of
`delimiter` from `resumePos`; on failure record `_looked_at = len(_data)`
and return `None`; on a match with span `(_, end)` return
`self._data[self._start : end]` and set `_start = end`.  When `delimiter`
differs from the remembered one it is re-remembered (and recompiled) before
the search. -/
def maybe_extract_until_delimiter (b : ReceiveBuffer) (delim : Pattern) :
    Option (List Nat) × ReceiveBuffer :=
  let b1 := if delim = b._delimiter then b else { b with _delimiter := delim }
  match findFrom delim b._data (resumePos b delim) with
  | none => (none, { b1 with _looked_at := (b._data.length : Int) })
  | some (_, e) => (some ((b._data.take e).drop b._start), { b1 with _start := e })

/-- Result of `maybe_extract_lines`: Python `None`, a list of lines, or an
`AssertionError` escaping from `assert lines[-2] == lines[-1] == b""`. -/
inductive LinesResult where
  | noData
  | lines (ls : List (List Nat))
  | assertFail
deriving DecidableEq, Repr

/-- Python 3 `==` between an `int` (the result of indexing a `bytearray`)
and a `bytes` object: always `False`, because the operands have different
types.  This is the comparison `self._data[self._start] == b"\n"` in
`maybe_extract_lines`. -/
def pyIntEqBytes (_c : Nat) (_s : List Nat) : Bool := false

/-- `maybe_extract_lines`: the `b"\r\n"` fast path consumes two bytes and
returns `[]`; the bare-`b"\n"` branch tests `self._data[self._start] == b"\n"`,
an int-vs-bytes comparison that is always false in Python, so it can never
fire; otherwise extract up to `b"\n\r?\n"`, split the block on `b"\r?\n"`,
assert the last two fragments are empty, and drop them. -/
def maybe_extract_lines (b : ReceiveBuffer) : LinesResult × ReceiveBuffer :=
  if (b._data.drop b._start).take 2 = [13, 10] then
    (.lines [], { b with _start := b._start + 2 })
  else if b._start < b._data.length ∧
      pyIntEqBytes (b._data.getD b._start 0) [10] = true then
    (.lines [], { b with _start := b._start + 1 })
  else
    match maybe_extract_until_delimiter b default_delimiter with
    | (none, b1) => (.noData, b1)
    | (some out, b1) =>
        let ls := reSplit line_delimiter out
        if ls.getLast? = some [] ∧ ls.dropLast.getLast? = some [] then
          (.lines ls.dropLast.dropLast, b1)
        else (.assertFail, b1)

/-- One call against the buffer: append, the three extraction methods, or
`compress`. -/
inductive Op where
  | add (chunk : List Nat)
  | atMost (n : Nat)
  | untilDelim (delim : Pattern)
  | extractLines
  | compressOp
deriving DecidableEq, Repr

/-- The state after one call. -/
def applyOp (b : ReceiveBuffer) : Op → ReceiveBuffer
  | .add c => b.iadd c
  | .atMost n => (maybe_extract_at_most b n).2
  | .untilDelim d => (maybe_extract_until_delimiter b d).2
  | .extractLines => (maybe_extract_lines b).2
  | .compressOp => b.compress

/-- The state reached from a fresh buffer by a sequence of calls. -/
def runOps (ops : List Op) : ReceiveBuffer :=
  ops.foldl applyOp .init

/-- The value a call returns to the caller (`None`/bytes/lines). -/
inductive OpResult where
  | unit
  | bytesOpt (r : Option (List Nat))
  | linesRes (r : LinesResult)
deriving DecidableEq, Repr

/-- The value returned by one call on buffer `b`. -/
def opResult (b : ReceiveBuffer) : Op → OpResult
  | .add _ => .unit
  | .compressOp => .unit
  | .atMost n => .bytesOpt (maybe_extract_at_most b n).1
  | .untilDelim d => .bytesOpt (maybe_extract_until_delimiter b d).1
  | .extractLines => .linesRes (maybe_extract_lines b).1

/-- The sequence of values returned by a sequence of calls starting at `b`. -/
def results : ReceiveBuffer → List Op → List OpResult
  | _, [] => []
  | b, op :: ops => opResult b op :: results (applyOp b op) ops

/-- The bytes a call appends to the buffer. -/
def appendedOf : Op → List Nat
  | .add c => c
  | _ => []

/-- The raw region of `_data` a call consumes: `_data[start : start']` where
`start'` is the offset after the call.  For `maybe_extract_lines` this is the
returned lines re-joined with the line delimiters and trailing blank line
they were cut from; for the other extraction calls it equals the returned
bytes (proved below); for append/compress it is empty. -/
def consumedOf (b : ReceiveBuffer) (op : Op) : List Nat :=
  (b._data.take (applyOp b op)._start).drop b._start

/-- The bytes a call emits to the caller: the returned byte string for
`maybe_extract_at_most` / `maybe_extract_until_delimiter` (empty when they
return `None`), and the consumed raw region for `maybe_extract_lines`
(its returned lines re-joined with the delimiters they were cut from). -/
def emittedOf (b : ReceiveBuffer) : Op → List Nat
  | .atMost n => ((maybe_extract_at_most b n).1).getD []
  | .untilDelim d => ((maybe_extract_until_delimiter b d).1).getD []
  | .extractLines => consumedOf b .extractLines
  | _ => []

/-- Running a call sequence from `b`, accumulating the concatenation of all
appended chunks and of all emitted byte strings, in call order. -/
def runTraceAux : ReceiveBuffer → List Op → List Nat × List Nat
  | _, [] => ([], [])
  | b, op :: ops =>
      let rest := runTraceAux (applyOp b op) ops
      (appendedOf op ++ rest.1, emittedOf b op ++ rest.2)

/-- Concatenation of all chunks appended by `ops`, run from a fresh buffer. -/
def appendedAll (ops : List Op) : List Nat :=
  (runTraceAux .init ops).1

/-- Concatenation of all bytes emitted by `ops`, run from a fresh buffer. -/
def emittedAll (ops : List Op) : List Nat :=
  (runTraceAux .init ops).2

/-- The observationally relevant part of a buffer state: the unconsumed
bytes, the search watermark relative to the cursor, and the remembered
delimiter. -/
structure Red where
  unc : List Nat
  laRel : Int
  delim : Pattern
deriving DecidableEq, Repr

/-- Project a buffer to its observationally relevant part. -/
def red (b : ReceiveBuffer) : Red :=
  ⟨b.unconsumed, b._looked_at - b._start, b._delimiter⟩

/-- The canonical buffer with a given observational part: cursor at 0. -/
def redBuf (r : Red) : ReceiveBuffer :=
  ⟨r.unc, 0, r.laRel, r.delim⟩

/-- Canonical form of a buffer: same observational part, cursor at 0. -/
def canon (b : ReceiveBuffer) : ReceiveBuffer :=
  redBuf (red b)

/-- Scanning work (positions tried, one pattern attempt each) performed by
one `maybe_extract_until_delimiter` call on `b`; the scan starts from the
clamped resume position, as in `findFrom`. -/
def searchCost (b : ReceiveBuffer) (delim : Pattern) : Nat :=
  findFromAuxCost delim b._data (min (resumePos b delim) b._data.length)
    (b._data.length + 1 - min (resumePos b delim) b._data.length)

/-- Total scanning work of all `maybe_extract_until_delimiter` calls in a
call sequence run from `b`. -/
def totalScanCost : ReceiveBuffer → List Op → Nat
  | _, [] => 0
  | b, op :: ops =>
      (match op with
        | .untilDelim d => searchCost b d
        | _ => 0) + totalScanCost (applyOp b op) ops

/-- The call sequence consists only of appends and of
`maybe_extract_until_delimiter` polls with the fixed pattern `P`. -/
def onlyAddsPolls (P : Pattern) : List Op → Bool
  | [] => true
  | .add _ :: ops => onlyAddsPolls P ops
  | .untilDelim d :: ops => decide (d = P) && onlyAddsPolls P ops
  | _ => false

/-- Every `maybe_extract_until_delimiter` call in the sequence, run from
`b`, returns the no-match signal. -/
def allNoMatch : ReceiveBuffer → List Op → Bool
  | _, [] => true
  | b, op :: ops =>
      (match op with
        | .untilDelim d => decide ((maybe_extract_until_delimiter b d).1 = none)
        | _ => true) && allNoMatch (applyOp b op) ops

/-- Total number of bytes appended by a call sequence. -/
def appendedTotal : List Op → Nat
  | [] => 0
  | .add c :: ops => c.length + appendedTotal ops
  | _ :: ops => appendedTotal ops

/-- Number of `maybe_extract_until_delimiter` calls in a sequence. -/
def pollCount : List Op → Nat
  | [] => 0
  | .untilDelim _ :: ops => pollCount ops + 1
  | _ :: ops => pollCount ops

/-- The state invariant that actually holds in every reachable state:
the cursor never passes the end of storage, and neither does the search
watermark (which can, however, be negative, and can lag behind the cursor). -/
def Inv (b : ReceiveBuffer) : Prop :=
  b._start ≤ b._data.length ∧ b._looked_at ≤ (b._data.length : Int)

/-! ### Basic facts about the regex fragment -/

theorem reMatch_length (pat : Pattern) : ∀ (bs : List Nat) (l : Nat),
    reMatch pat bs = some l → l ≤ bs.length := by
  induction pat with
  | nil => intro bs l h; simp [reMatch] at h; omega
  | cons a r ih =>
    intro bs l h
    cases a with
    | char c =>
      cases bs with
      | nil => simp [reMatch] at h
      | cons b bs' =>
        simp only [reMatch] at h
        split at h
        · cases hm : reMatch r bs' with
          | none => rw [hm] at h; simp at h
          | some m =>
            rw [hm] at h
            simp only [Option.map_some', Option.some.injEq] at h
            have := ih bs' m hm
            simp only [List.length_cons]
            omega
        · simp at h
    | opt c =>
      cases bs with
      | nil =>
        simp only [reMatch] at h
        simpa using ih [] l h
      | cons b bs' =>
        simp only [reMatch] at h
        split at h
        · cases hm : reMatch r bs' with
          | some m =>
            rw [hm] at h
            simp only [Option.some.injEq] at h
            have := ih bs' m hm
            simp only [List.length_cons]
            omega
          | none =>
            rw [hm] at h
            have := ih (b :: bs') l h
            simpa using this
        · have := ih (b :: bs') l h
          simpa using this

theorem findFromAux_none (pat : Pattern) (data : List Nat) :
    ∀ (fuel pos : Nat), findFromAux pat data pos fuel = none →
      ∀ j, pos ≤ j → j < pos + fuel → reMatch pat (data.drop j) = none := by
  intro fuel
  induction fuel with
  | zero => intro pos _ j _ h2; omega
  | succ n ih =>
    intro pos h j h1 h2
    rw [findFromAux] at h
    cases hm : reMatch pat (data.drop pos) with
    | some l => rw [hm] at h; simp at h
    | none =>
      rw [hm] at h
      rcases Nat.eq_or_lt_of_le h1 with rfl | hlt
      · exact hm
      · exact ih (pos + 1) h j hlt (by omega)

theorem findFromAux_some (pat : Pattern) (data : List Nat) :
    ∀ (fuel pos i e : Nat), findFromAux pat data pos fuel = some (i, e) →
      pos ≤ i ∧ i < pos + fuel ∧ reMatch pat (data.drop i) = some (e - i) ∧ i ≤ e ∧
      ∀ j, pos ≤ j → j < i → reMatch pat (data.drop j) = none := by
  intro fuel
  induction fuel with
  | zero => intro pos i e h; simp [findFromAux] at h
  | succ n ih =>
    intro pos i e h
    rw [findFromAux] at h
    cases hm : reMatch pat (data.drop pos) with
    | some l =>
      rw [hm] at h
      simp only [Option.some.injEq, Prod.mk.injEq] at h
      obtain ⟨rfl, rfl⟩ := h
      refine ⟨le_refl _, by omega, ?_, by omega, fun j h1 h2 => by omega⟩
      simpa using hm
    | none =>
      rw [hm] at h
      obtain ⟨h1, h2, h3, h4, h5⟩ := ih (pos + 1) i e h
      refine ⟨by omega, by omega, h3, h4, fun j hj1 hj2 => ?_⟩
      rcases Nat.eq_or_lt_of_le hj1 with rfl | hlt
      · exact hm
      · exact h5 j hlt hj2

theorem findFrom_some (pat : Pattern) (data : List Nat) (pos i e : Nat)
    (h : findFrom pat data pos = some (i, e)) :
    min pos data.length ≤ i ∧ i ≤ data.length ∧
      reMatch pat (data.drop i) = some (e - i) ∧
      i ≤ e ∧ e ≤ data.length ∧
      ∀ j, min pos data.length ≤ j → j < i →
        reMatch pat (data.drop j) = none := by
  obtain ⟨h1, h2, h3, h4, h5⟩ := findFromAux_some pat data _ _ i e h
  have hp : min pos data.length ≤ data.length := min_le_right _ _
  have hi : i ≤ data.length := by omega
  have hl := reMatch_length pat _ _ h3
  rw [List.length_drop] at hl
  exact ⟨h1, hi, h3, h4, by omega, h5⟩

theorem findFrom_none (pat : Pattern) (data : List Nat) (pos : Nat)
    (h : findFrom pat data pos = none) :
    ∀ j, min pos data.length ≤ j → j ≤ data.length →
      reMatch pat (data.drop j) = none := by
  intro j h1 h2
  have hp : min pos data.length ≤ data.length := min_le_right _ _
  exact findFromAux_none pat data _ _ h j h1 (by omega)

/-- Splicing identity: the slice `data[s:e]` followed by the tail `data[e:]`
is the tail `data[s:]`. -/
theorem slice_glue (data : List Nat) (s e : Nat) (hse : s ≤ e)
    (hel : e ≤ data.length) :
    (data.take e).drop s ++ data.drop e = data.drop s := by
  conv_rhs => rw [← List.take_append_drop e data, List.drop_append_of_le_length
    (by rw [List.length_take]; omega)]

/-! ### Characterizations of the operations -/

theorem resumePos_ge_start (b : ReceiveBuffer) (d : Pattern) :
    b._start ≤ resumePos b d := by
  unfold resumePos
  split
  · rcases le_total (b._looked_at - srcLen d + 1) (b._start : Int) with hc | hc
    · rw [max_eq_left hc]; simp
    · rw [max_eq_right hc]; omega
  · exact le_refl _

theorem until_eq (b : ReceiveBuffer) (d : Pattern) :
    maybe_extract_until_delimiter b d =
      match findFrom d b._data (resumePos b d) with
      | none => (none, ⟨b._data, b._start, (b._data.length : Int), d⟩)
      | some (_, e) => (some ((b._data.take e).drop b._start),
          ⟨b._data, e, b._looked_at, d⟩) := by
  unfold maybe_extract_until_delimiter
  have hb1 : (if d = b._delimiter then b else { b with _delimiter := d }) =
      ⟨b._data, b._start, b._looked_at, d⟩ := by
    split
    · cases b; simp_all
    · cases b; rfl
  rw [hb1]

/-! ### The reachable-state invariant -/

theorem inv_init : Inv ReceiveBuffer.init := by
  constructor <;> simp [ReceiveBuffer.init]

theorem inv_iadd (b : ReceiveBuffer) (c : List Nat) (h : Inv b) :
    Inv (b.iadd c) := by
  obtain ⟨h1, h2⟩ := h
  constructor
  · simp only [ReceiveBuffer.iadd, List.length_append]; omega
  · simp only [ReceiveBuffer.iadd, List.length_append]; push_cast; omega

theorem inv_compress (b : ReceiveBuffer) (h : Inv b) : Inv b.compress := by
  obtain ⟨h1, h2⟩ := h
  unfold ReceiveBuffer.compress
  split
  · constructor
    · simp
    · simp only [List.length_drop]
      push_cast [h1]
      omega
  · exact ⟨h1, h2⟩

theorem atMost_eq (b : ReceiveBuffer) (n : Nat) :
    maybe_extract_at_most b n =
      if (b._data.drop b._start).take n = [] then (none, b)
      else (some ((b._data.drop b._start).take n),
        ⟨b._data, b._start + ((b._data.drop b._start).take n).length,
          b._looked_at, b._delimiter⟩) := rfl

theorem inv_atMost (b : ReceiveBuffer) (n : Nat) (h : Inv b) :
    Inv (maybe_extract_at_most b n).2 := by
  obtain ⟨h1, h2⟩ := h
  rw [atMost_eq]
  split
  · exact ⟨h1, h2⟩
  · constructor
    · show b._start + ((b._data.drop b._start).take n).length ≤ b._data.length
      simp only [List.length_take, List.length_drop]
      omega
    · exact h2

theorem inv_until (b : ReceiveBuffer) (d : Pattern) (h : Inv b) :
    Inv (maybe_extract_until_delimiter b d).2 := by
  obtain ⟨h1, h2⟩ := h
  rw [until_eq]
  rcases hf : findFrom d b._data (resumePos b d) with _ | ⟨i, e⟩
  · exact ⟨h1, le_refl _⟩
  · obtain ⟨_, _, _, _, he, _⟩ := findFrom_some d b._data _ i e hf
    exact ⟨he, h2⟩

theorem inv_lines (b : ReceiveBuffer) (h : Inv b) :
    Inv (maybe_extract_lines b).2 := by
  unfold maybe_extract_lines
  split
  · rename_i hc
    have hlen : ((b._data.drop b._start).take 2).length = 2 := by rw [hc]; rfl
    simp only [List.length_take, List.length_drop] at hlen
    obtain ⟨h1, h2⟩ := h
    constructor
    · show b._start + 2 ≤ b._data.length
      omega
    · exact h2
  · split
    · rename_i hc
      simp [pyIntEqBytes] at hc
    · rcases hu : maybe_extract_until_delimiter b default_delimiter with ⟨r, b1⟩
      have := inv_until b default_delimiter h
      rw [hu] at this
      rcases r with _ | out
      · exact this
      · simp only []
        split <;> exact this

theorem inv_applyOp (b : ReceiveBuffer) (op : Op) (h : Inv b) :
    Inv (applyOp b op) := by
  cases op with
  | add c => exact inv_iadd b c h
  | atMost n => exact inv_atMost b n h
  | untilDelim d => exact inv_until b d h
  | extractLines => exact inv_lines b h
  | compressOp => exact inv_compress b h

theorem inv_foldl (ops : List Op) : ∀ (b : ReceiveBuffer), Inv b →
    Inv (ops.foldl applyOp b) := by
  induction ops with
  | nil => intro b h; exact h
  | cons op ops ih =>
    intro b h
    exact ih (applyOp b op) (inv_applyOp b op h)

theorem inv_runOps (ops : List Op) : Inv (runOps ops) :=
  inv_foldl ops _ inv_init

/-! ### Claim theorems: concrete behaviours -/

/-- C4: starting from an empty buffer, appending `b"ab\r"` and polling
`maybe_extract_until_delimiter` with the default pattern returns the
no-match signal (recording `searched = 3`); appending `b"\n\r\n"` and
polling again resumes from `max(start, searched - (pattern_length - 1))`,
finds the delimiter straddling the append boundary, returns
`b"ab\r\n\r\n"`, and leaves the unconsumed region empty. -/
theorem c4_split_delimiter_across_appends :
    (maybe_extract_until_delimiter (ReceiveBuffer.init.iadd [97, 98, 13])
        default_delimiter).1 = none ∧
    (maybe_extract_until_delimiter (ReceiveBuffer.init.iadd [97, 98, 13])
        default_delimiter).2 = ⟨[97, 98, 13], 0, 3, default_delimiter⟩ ∧
    srcLen default_delimiter = 4 ∧
    resumePos ((⟨[97, 98, 13], 0, 3, default_delimiter⟩ :
        ReceiveBuffer).iadd [10, 13, 10]) default_delimiter =
      (max ((0 : Nat) : Int) (3 - ((srcLen default_delimiter : Int) - 1))).toNat ∧
    (maybe_extract_until_delimiter ((⟨[97, 98, 13], 0, 3, default_delimiter⟩ :
        ReceiveBuffer).iadd [10, 13, 10]) default_delimiter).1 =
      some [97, 98, 13, 10, 13, 10] ∧
    ((maybe_extract_until_delimiter ((⟨[97, 98, 13], 0, 3, default_delimiter⟩ :
        ReceiveBuffer).iadd [10, 13, 10]) default_delimiter).2)._start = 6 ∧
    ((maybe_extract_until_delimiter ((⟨[97, 98, 13], 0, 3, default_delimiter⟩ :
        ReceiveBuffer).iadd [10, 13, 10]) default_delimiter).2).unconsumed = [] := by
  decide

/-- C7: on a buffer whose unconsumed region is exactly
`b"Host: x\r\nFoo: y\r\n\r\n"`, `maybe_extract_lines` returns
`[b"Host: x", b"Foo: y"]` and leaves the unconsumed region empty; on a
buffer whose unconsumed region is exactly `b"\r\n"` it consumes exactly
2 bytes and returns the empty sequence. -/
theorem c7_header_block_extraction :
    maybe_extract_lines ⟨[72, 111, 115, 116, 58, 32, 120, 13, 10,
        70, 111, 111, 58, 32, 121, 13, 10, 13, 10], 0, 0, default_delimiter⟩ =
      (.lines [[72, 111, 115, 116, 58, 32, 120], [70, 111, 111, 58, 32, 121]],
       ⟨[72, 111, 115, 116, 58, 32, 120, 13, 10,
         70, 111, 111, 58, 32, 121, 13, 10, 13, 10], 19, 0, default_delimiter⟩) ∧
    (maybe_extract_lines ⟨[72, 111, 115, 116, 58, 32, 120, 13, 10,
        70, 111, 111, 58, 32, 121, 13, 10, 13, 10], 0, 0,
        default_delimiter⟩).2.unconsumed = [] ∧
    maybe_extract_lines ⟨[13, 10], 0, 0, default_delimiter⟩ =
      (.lines [], ⟨[13, 10], 2, 0, default_delimiter⟩) := by
  decide

/-- C5 (code bug): on a buffer whose unconsumed region is the single bare
byte `b"\n"`, `maybe_extract_lines` is claimed to consume 1 byte and return
an empty sequence; the code instead falls through to the delimiter search
(consuming nothing and returning the `None` signal), because the guard
`self._data[self._start] == b"\n"` compares an `int` with a `bytes` object
and is therefore always false in Python. -/
theorem c5_bare_lf_branch_dead :
    maybe_extract_lines ⟨[10], 0, 0, default_delimiter⟩ =
      (.noData, ⟨[10], 0, 1, default_delimiter⟩) ∧
    ∀ (c : Nat) (s : List Nat), pyIntEqBytes c s = false :=
  ⟨by decide, fun _ _ => rfl⟩

/-- C3 (amended): `maybe_extract_at_most` returns the no-data signal iff
the unconsumed region is empty or the requested count is zero (Python's
`if not out` treats the empty slice from `count = 0` exactly like an empty
buffer); whenever it returns bytes it returns `min(n, available)` bytes
from `start` and advances `start` by that amount. -/
theorem c3_at_most_amended (b : ReceiveBuffer) (n : Nat) :
    ((maybe_extract_at_most b n).1 = none ↔ (b.unconsumed = [] ∨ n = 0)) ∧
    maybe_extract_at_most b n =
      (if b.unconsumed = [] ∨ n = 0 then (none, b)
       else (some (b.unconsumed.take n),
         ⟨b._data, b._start + min n b.pyLen, b._looked_at, b._delimiter⟩)) := by
  have hiff : (b._data.drop b._start).take n = [] ↔ (b.unconsumed = [] ∨ n = 0) := by
    rw [List.take_eq_nil_iff]
    unfold ReceiveBuffer.unconsumed
    tauto
  have heq : maybe_extract_at_most b n =
      (if b.unconsumed = [] ∨ n = 0 then (none, b)
       else (some (b.unconsumed.take n),
         ⟨b._data, b._start + min n b.pyLen, b._looked_at, b._delimiter⟩)) := by
    rw [atMost_eq]
    split
    · rw [if_pos (hiff.mp ‹_›)]
    · rename_i h
      rw [if_neg (fun hc => h (hiff.mpr hc))]
      have hl : ((b._data.drop b._start).take n).length = min n b.pyLen := by
        simp [List.length_take, ReceiveBuffer.pyLen]
      rw [hl]
      rfl
  refine ⟨?_, heq⟩
  rw [heq]
  split
  · simp_all
  · simp_all

/-- C3 (counterexample): the claim "returns the no-data signal iff the
unconsumed region is empty" fails at `count = 0` on the non-empty buffer
holding `b"a"`: the code returns the no-data signal although the
unconsumed region is non-empty. -/
theorem c3_counterexample :
    ¬(((maybe_extract_at_most ⟨[97], 0, 0, default_delimiter⟩ 0).1 = none) ↔
      (ReceiveBuffer.unconsumed ⟨[97], 0, 0, default_delimiter⟩ = [])) := by
  decide

/-- C6 (amended): in every state reachable from a fresh buffer,
`0 ≤ start ≤ len(storage)` and `searched ≤ len(storage)`; the chain
`start ≤ searched` (and even `0 ≤ searched`) of the original claim does
not hold in all reachable states. -/
theorem c6_invariant_amended (ops : List Op) :
    0 ≤ (runOps ops)._start ∧ (runOps ops)._start ≤ (runOps ops)._data.length ∧
    (runOps ops)._looked_at ≤ ((runOps ops)._data.length : Int) :=
  ⟨Nat.zero_le _, (inv_runOps ops).1, (inv_runOps ops).2⟩

/-- C6 (counterexample): after appending `b"ab"` and extracting one byte,
the reachable state has `start = 1 > 0 = searched`, refuting
`start ≤ searched`. -/
theorem c6_counterexample :
    ¬(((runOps [.add [97, 98], .atMost 1])._start : Int) ≤
      (runOps [.add [97, 98], .atMost 1])._looked_at) := by
  decide

/-! ### C1: first-match contract of maybe_extract_until_delimiter -/

/-- C1 (amended): for every buffer state and every pattern,
`maybe_extract_until_delimiter` either finds the first match of the pattern
at or after the clamped resume position `min(resume, len(storage))` —
CPython clamps `finditer`'s start position into `[0, len]` — returning
exactly `storage[start : end]` where `end` is one past that match and
setting `start = end`; or no position between the clamped resume position
and `len(storage)` matches, and it sets `searched = len(storage)`, returns
the no-match signal, and leaves `start` (and the data) unchanged.  (With an
empty remembered pattern the clamped position can precede the resume
position itself, and then the match found is not at or after the resume
position — see the counterexample.) -/
theorem c1_until_delimiter_amended (b : ReceiveBuffer) (d : Pattern) :
    (∃ i l, min (resumePos b d) b._data.length ≤ i ∧
       reMatch d (b._data.drop i) = some l ∧
       (∀ j, min (resumePos b d) b._data.length ≤ j → j < i →
         reMatch d (b._data.drop j) = none) ∧
       (maybe_extract_until_delimiter b d).1 =
         some ((b._data.take (i + l)).drop b._start) ∧
       (maybe_extract_until_delimiter b d).2._start = i + l ∧
       i + l ≤ b._data.length ∧
       (maybe_extract_until_delimiter b d).2._data = b._data) ∨
    ((∀ j, min (resumePos b d) b._data.length ≤ j → j ≤ b._data.length →
        reMatch d (b._data.drop j) = none) ∧
     (maybe_extract_until_delimiter b d).1 = none ∧
     (maybe_extract_until_delimiter b d).2._start = b._start ∧
     (maybe_extract_until_delimiter b d).2._looked_at = (b._data.length : Int) ∧
     (maybe_extract_until_delimiter b d).2._data = b._data) := by
  rw [until_eq]
  rcases hf : findFrom d b._data (resumePos b d) with _ | ⟨i, e⟩
  · exact Or.inr ⟨findFrom_none d b._data _ hf, rfl, rfl, rfl, rfl⟩
  · left
    obtain ⟨h1, h2, h3, h4, h5, h6⟩ := findFrom_some d b._data _ i e hf
    have he : i + (e - i) = e := by omega
    refine ⟨i, e - i, h1, h3, h6, ?_, ?_, by omega, rfl⟩
    · rw [he]
    · rw [he]

/-- C1 (counterexample): at the reachable state with `storage = b"a"`,
`start = 0`, `searched = 1` and remembered delimiter `b""` (reached by
appending `b"a"`, polling the default pattern, then polling `b""`), a
further poll with `b""` has resume position `max(0, 1 - 0 + 1) = 2`;
CPython clamps `finditer`'s start position to `len(storage) = 1` and finds
the empty match spanning `(1, 1)`, so the call returns `b"a"` and sets
`start = 1` — a match strictly before the resume position — satisfying
neither arm of the claimed contract. -/
theorem c1_counterexample :
    runOps [.add [97], .untilDelim default_delimiter, .untilDelim []] =
      ⟨[97], 0, 1, []⟩ ∧
    resumePos ⟨[97], 0, 1, []⟩ [] = 2 ∧
    (maybe_extract_until_delimiter ⟨[97], 0, 1, []⟩ []).1 = some [97] ∧
    (maybe_extract_until_delimiter ⟨[97], 0, 1, []⟩ []).2._start = 1 ∧
    ¬((∃ i l, resumePos ⟨[97], 0, 1, []⟩ [] ≤ i ∧
        reMatch [] (([97] : List Nat).drop i) = some l ∧
        (∀ j, resumePos ⟨[97], 0, 1, []⟩ [] ≤ j → j < i →
          reMatch [] (([97] : List Nat).drop j) = none) ∧
        (maybe_extract_until_delimiter ⟨[97], 0, 1, []⟩ []).1 =
          some ((([97] : List Nat).take (i + l)).drop 0) ∧
        (maybe_extract_until_delimiter ⟨[97], 0, 1, []⟩ []).2._start =
          i + l) ∨
      ((∀ j, resumePos ⟨[97], 0, 1, []⟩ [] ≤ j →
          j ≤ ([97] : List Nat).length →
          reMatch [] (([97] : List Nat).drop j) = none) ∧
       (maybe_extract_until_delimiter ⟨[97], 0, 1, []⟩ []).1 = none)) := by
  refine ⟨by decide, by decide, by decide, by decide, ?_⟩
  rintro (⟨i, l, h1, -, -, -, h5⟩ | ⟨-, h7⟩)
  · rw [show resumePos ⟨[97], 0, 1, []⟩ [] = 2 from by decide] at h1
    rw [show (maybe_extract_until_delimiter ⟨[97], 0, 1, []⟩ []).2._start = 1
      from by decide] at h5
    omega
  · rw [show (maybe_extract_until_delimiter ⟨[97], 0, 1, []⟩ []).1 = some [97]
      from by decide] at h7
    exact Option.noConfusion h7

/-! ### C2: lossless reconstruction -/

theorem take_append_drop_length (xs : List Nat) (n : Nat) :
    xs.take n ++ xs.drop (xs.take n).length = xs := by
  rw [List.length_take]
  rcases le_total n xs.length with h | h
  · rw [min_eq_left h, List.take_append_drop]
  · rw [min_eq_right h, List.take_of_length_le h, List.drop_length,
      List.append_nil]

theorem atMost_step (b : ReceiveBuffer) (n : Nat) :
    ((maybe_extract_at_most b n).1).getD [] ++
      (maybe_extract_at_most b n).2.unconsumed = b.unconsumed := by
  rw [atMost_eq]
  split
  · rfl
  · show (b._data.drop b._start).take n ++
      b._data.drop (b._start + ((b._data.drop b._start).take n).length) =
        b._data.drop b._start
    rw [← List.drop_drop]
    exact take_append_drop_length (b._data.drop b._start) n

theorem until_step (b : ReceiveBuffer) (d : Pattern)
    (hsl : b._start ≤ b._data.length) :
    ((maybe_extract_until_delimiter b d).1).getD [] ++
      (maybe_extract_until_delimiter b d).2.unconsumed = b.unconsumed := by
  rw [until_eq]
  rcases hf : findFrom d b._data (resumePos b d) with _ | ⟨i, e⟩
  · rfl
  · obtain ⟨h1, _, _, h4, h5, _⟩ := findFrom_some d b._data _ i e hf
    have hs : b._start ≤ e :=
      le_trans (le_min (resumePos_ge_start b d) hsl) (le_trans h1 h4)
    show (b._data.take e).drop b._start ++ b._data.drop e = b._data.drop b._start
    exact slice_glue b._data b._start e hs h5

theorem until_state (b : ReceiveBuffer) (d : Pattern)
    (hsl : b._start ≤ b._data.length) :
    (maybe_extract_until_delimiter b d).2._data = b._data ∧
      b._start ≤ (maybe_extract_until_delimiter b d).2._start := by
  rw [until_eq]
  rcases hf : findFrom d b._data (resumePos b d) with _ | ⟨i, e⟩
  · exact ⟨rfl, le_refl _⟩
  · obtain ⟨h1, _, _, h4, _, _⟩ := findFrom_some d b._data _ i e hf
    exact ⟨rfl,
      le_trans (le_min (resumePos_ge_start b d) hsl) (le_trans h1 h4)⟩

theorem lines_state (b : ReceiveBuffer) (hsl : b._start ≤ b._data.length) :
    (maybe_extract_lines b).2._data = b._data ∧
      b._start ≤ (maybe_extract_lines b).2._start := by
  unfold maybe_extract_lines
  split
  · exact ⟨rfl, by show b._start ≤ b._start + 2; omega⟩
  · split
    · exact ⟨rfl, by show b._start ≤ b._start + 1; omega⟩
    · rcases hu : maybe_extract_until_delimiter b default_delimiter with ⟨r, b1⟩
      have hd := until_state b default_delimiter hsl
      rw [hu] at hd
      rcases r with _ | out
      · exact hd
      · simp only []
        split <;> exact hd

theorem lines_step (b : ReceiveBuffer) (h : Inv b) :
    consumedOf b .extractLines ++ (maybe_extract_lines b).2.unconsumed =
      b.unconsumed := by
  obtain ⟨hd, hs⟩ := lines_state b h.1
  have hinv := inv_lines b h
  have hl : (maybe_extract_lines b).2._start ≤ b._data.length := by
    have := hinv.1
    rw [hd] at this
    exact this
  show (b._data.take (maybe_extract_lines b).2._start).drop b._start ++
    (maybe_extract_lines b).2._data.drop (maybe_extract_lines b).2._start =
      b._data.drop b._start
  rw [hd]
  exact slice_glue b._data b._start _ hs hl

theorem compress_unconsumed (b : ReceiveBuffer) :
    b.compress.unconsumed = b.unconsumed := by
  unfold ReceiveBuffer.compress
  split
  · show (b._data.drop b._start).drop (b._start - b._start) = b._data.drop b._start
    rw [Nat.sub_self]
    rfl
  · rfl

theorem emitted_step (b : ReceiveBuffer) (op : Op) (h : Inv b) :
    emittedOf b op ++ (applyOp b op).unconsumed =
      b.unconsumed ++ appendedOf op := by
  cases op with
  | add c =>
    show [] ++ (b._data ++ c).drop b._start = b._data.drop b._start ++ c
    rw [List.nil_append, List.drop_append_of_le_length h.1]
  | atMost n =>
    rw [show appendedOf (.atMost n) = [] from rfl, List.append_nil]
    exact atMost_step b n
  | untilDelim d =>
    rw [show appendedOf (.untilDelim d) = [] from rfl, List.append_nil]
    exact until_step b d h.1
  | extractLines =>
    rw [show appendedOf .extractLines = [] from rfl, List.append_nil]
    exact lines_step b h
  | compressOp =>
    show [] ++ b.compress.unconsumed = b.unconsumed ++ []
    rw [List.nil_append, List.append_nil]
    exact compress_unconsumed b

theorem trace_glue : ∀ (ops : List Op) (b : ReceiveBuffer), Inv b →
    (runTraceAux b ops).2 ++ (ops.foldl applyOp b).unconsumed =
      b.unconsumed ++ (runTraceAux b ops).1 := by
  intro ops
  induction ops with
  | nil => intro b _; show [] ++ b.unconsumed = b.unconsumed ++ []; simp
  | cons op ops ih =>
    intro b h
    show (emittedOf b op ++ (runTraceAux (applyOp b op) ops).2) ++
        (ops.foldl applyOp (applyOp b op)).unconsumed =
      b.unconsumed ++ (appendedOf op ++ (runTraceAux (applyOp b op) ops).1)
    rw [List.append_assoc, ih (applyOp b op) (inv_applyOp b op h),
      ← List.append_assoc, emitted_step b op h, List.append_assoc]

/-- C2: for any interleaving of appends, compress calls and extraction
calls run from a fresh buffer, the concatenation of all bytes emitted by
the extraction calls in call order (with the lines returned by
`maybe_extract_lines` re-joined with the delimiters they consumed, i.e.
the raw region it consumed) followed by the still-unconsumed region is
exactly the concatenation of all appended chunks; hence the emitted bytes
are a prefix of the appended stream — nothing duplicated, dropped,
re-emitted or reordered. -/
theorem c2_lossless_reconstruction (ops : List Op) :
    emittedAll ops ++ (runOps ops).unconsumed = appendedAll ops ∧
    emittedAll ops = (appendedAll ops).take (emittedAll ops).length := by
  have h := trace_glue ops .init inv_init
  rw [show (ReceiveBuffer.init).unconsumed = [] from rfl, List.nil_append] at h
  refine ⟨h, ?_⟩
  show (runTraceAux .init ops).2 =
    ((runTraceAux .init ops).1).take (runTraceAux .init ops).2.length
  rw [← h, List.take_left]

/-! ### C9: the line-split assertion -/

theorem ld_eval (b : Nat) (bs : List Nat) :
    reMatch line_delimiter (b :: bs) =
      if b = 13 then
        (match bs with
         | c :: _ => if c = 10 then some 2 else none
         | [] => none)
      else if b = 10 then some 1 else none := by
  show reMatch [.opt 13, .char 10] (b :: bs) = _
  by_cases hb13 : b = 13
  · subst hb13
    simp only [reMatch, if_pos rfl]
    cases bs with
    | nil => simp [reMatch]
    | cons c rest =>
      by_cases hc : c = 10
      · subst hc; simp [reMatch]
      · simp [reMatch, hc]
  · by_cases hb10 : b = 10
    · subst hb10; simp [reMatch, hb13]
    · simp [reMatch, hb13, hb10]

theorem ld_at_lf (rest : List Nat) :
    reMatch line_delimiter (10 :: rest) = some 1 := by
  rw [ld_eval]; norm_num

theorem ld_shape (bs : List Nat) (l : Nat)
    (h : reMatch line_delimiter bs = some l) :
    (l = 1 ∧ bs.take 1 = [10]) ∨ (l = 2 ∧ bs.take 2 = [13, 10]) := by
  cases bs with
  | nil => simp [line_delimiter, reMatch] at h
  | cons b bs' =>
    rw [ld_eval] at h
    by_cases hb13 : b = 13
    · subst hb13
      rw [if_pos rfl] at h
      cases bs' with
      | nil => exact Option.noConfusion h
      | cons c rest =>
        have h' : (if c = 10 then some 2 else none : Option Nat) = some l := h
        by_cases hc : c = 10
        · subst hc
          rw [if_pos rfl] at h'
          simp only [Option.some.injEq] at h'
          right
          exact ⟨by omega, rfl⟩
        · rw [if_neg hc] at h'
          exact Option.noConfusion h'
    · rw [if_neg hb13] at h
      by_cases hb10 : b = 10
      · subst hb10
        rw [if_pos rfl] at h
        simp only [Option.some.injEq] at h
        left
        exact ⟨by omega, rfl⟩
      · rw [if_neg hb10] at h
        simp at h

theorem dd_cons (b : Nat) (bs : List Nat) :
    reMatch default_delimiter (b :: bs) =
      if b = 10 then (reMatch line_delimiter bs).map (· + 1) else none := rfl

theorem dd_shape (bs : List Nat) (l : Nat)
    (h : reMatch default_delimiter bs = some l) :
    (l = 2 ∧ bs.take 2 = [10, 10]) ∨ (l = 3 ∧ bs.take 3 = [10, 13, 10]) := by
  cases bs with
  | nil => simp [default_delimiter, reMatch] at h
  | cons b bs' =>
    rw [dd_cons] at h
    by_cases hb : b = 10
    · rw [if_pos hb] at h
      cases hm : reMatch line_delimiter bs' with
      | none => rw [hm] at h; simp at h
      | some k =>
        rw [hm] at h
        simp only [Option.map_some', Option.some.injEq] at h
        subst hb
        rcases ld_shape bs' k hm with ⟨h1, ht⟩ | ⟨h2, ht⟩
        · left
          refine ⟨by omega, ?_⟩
          rw [List.take_succ_cons, ht]
        · right
          refine ⟨by omega, ?_⟩
          rw [List.take_succ_cons, ht]
    · rw [if_neg hb] at h; simp at h

theorem reSplitAux_fuel (pat : Pattern) : ∀ (f1 f2 : Nat) (s : List Nat),
    s.length < f1 → s.length < f2 →
    reSplitAux pat f1 s = reSplitAux pat f2 s := by
  intro f1
  induction f1 with
  | zero => intro f2 s h1 _; omega
  | succ a ih =>
    intro f2 s h1 h2
    cases f2 with
    | zero => omega
    | succ c =>
      rw [reSplitAux, reSplitAux]
      cases hf : findFrom pat s 0 with
      | none => rfl
      | some ie =>
        rcases ie with ⟨i, e⟩
        show (if i < e then s.take i :: reSplitAux pat a (s.drop e) else [s]) =
          (if i < e then s.take i :: reSplitAux pat c (s.drop e) else [s])
        by_cases hie : i < e
        · simp only [if_pos hie]
          obtain ⟨-, -, -, -, he_len, -⟩ := findFrom_some pat s 0 i e hf
          have hlen : (s.drop e).length < s.length := by
            rw [List.length_drop]; omega
          rw [ih c (s.drop e) (by omega) (by omega)]
        · simp only [if_neg hie]

theorem reSplit_cons (s : List Nat) (i e : Nat)
    (hf : findFrom line_delimiter s 0 = some (i, e)) (hie : i < e) :
    reSplit line_delimiter s =
      s.take i :: reSplit line_delimiter (s.drop e) := by
  obtain ⟨-, -, -, -, he_len, -⟩ := findFrom_some line_delimiter s 0 i e hf
  unfold reSplit
  rw [reSplitAux, hf]
  show (if i < e then
      s.take i :: reSplitAux line_delimiter s.length (s.drop e) else [s]) =
    s.take i :: reSplitAux line_delimiter ((s.drop e).length + 1) (s.drop e)
  rw [if_pos hie]
  have hlt : (s.drop e).length < s.length := by
    rw [List.length_drop]; omega
  rw [reSplitAux_fuel line_delimiter s.length ((s.drop e).length + 1)
    (s.drop e) hlt (by omega)]

theorem split_ends : ∀ (n : Nat) (s : List Nat), s.length ≤ n →
    ((∃ t, s = t ++ [10, 10]) ∨ (∃ t, s = t ++ [10, 13, 10])) →
    ∃ ps, reSplit line_delimiter s = ps ++ [[], []] := by
  intro n
  induction n with
  | zero =>
    intro s hs hends
    exfalso
    rcases hends with ⟨t, rfl⟩ | ⟨t, rfl⟩ <;> simp at hs
  | succ n ih =>
    intro s hs hends
    rcases hends with ⟨t, rfl⟩ | ⟨t, rfl⟩
    · -- the block ends with b"\n\n"
      have hd2 : (t ++ [10, 10]).drop t.length = [10, 10] := List.drop_left t _
      have hd1 : (t ++ [10, 10]).drop (t.length + 1) = [10] := by
        rw [show t ++ [10, 10] = (t ++ [10]) ++ [10] from by
            rw [List.append_assoc]; rfl,
          show t.length + 1 = (t ++ [(10 : Nat)]).length from by simp]
        exact List.drop_left _ _
      have hlen : (t ++ [10, 10]).length = t.length + 2 := by simp
      rcases hf : findFrom line_delimiter (t ++ [10, 10]) 0 with _ | ⟨i, e⟩
      · exfalso
        have hnone := findFrom_none _ _ _ hf t.length (by omega) (by omega)
        rw [hd2, ld_at_lf] at hnone
        simp at hnone
      · obtain ⟨-, hi_len, hm, hie', he_len, hmin⟩ := findFrom_some _ _ _ _ _ hf
        obtain hsh := ld_shape _ _ hm
        have he1 : 1 ≤ e - i := by rcases hsh with ⟨h1, -⟩ | ⟨h1, -⟩ <;> omega
        have hcons := reSplit_cons _ i e hf (by omega)
        by_cases hcase : e ≤ t.length
        · have hrem : (t ++ [10, 10]).drop e = t.drop e ++ [10, 10] :=
            List.drop_append_of_le_length hcase
          obtain ⟨ps, hps⟩ := ih ((t ++ [10, 10]).drop e)
            (by rw [List.length_drop]; omega) (Or.inl ⟨t.drop e, hrem⟩)
          exact ⟨(t ++ [10, 10]).take i :: ps, by rw [hcons, hps]; rfl⟩
        · by_cases hcase2 : e = t.length + 1
          · refine ⟨[(t ++ [10, 10]).take i], ?_⟩
            rw [hcons, hcase2, hd1,
              show reSplit line_delimiter [10] = [[], []] from by decide]
            rfl
          · exfalso
            have he : e = t.length + 2 := by omega
            rcases hsh with ⟨h1, htake⟩ | ⟨h2, htake⟩
            · have hi : i = t.length + 1 := by omega
              have hnone := hmin t.length (by omega) (by omega)
              rw [hd2, ld_at_lf] at hnone
              simp at hnone
            · have hi : i = t.length := by omega
              rw [hi, hd2] at htake
              simp at htake
    · -- the block ends with b"\n\r\n"
      have hd3 : (t ++ [10, 13, 10]).drop t.length = [10, 13, 10] :=
        List.drop_left t _
      have hd2' : (t ++ [10, 13, 10]).drop (t.length + 1) = [13, 10] := by
        rw [show t ++ [10, 13, 10] = (t ++ [10]) ++ [13, 10] from by
            rw [List.append_assoc]; rfl,
          show t.length + 1 = (t ++ [(10 : Nat)]).length from by simp]
        exact List.drop_left _ _
      have hd1' : (t ++ [10, 13, 10]).drop (t.length + 2) = [10] := by
        rw [show t ++ [10, 13, 10] = (t ++ [10, 13]) ++ [10] from by
            rw [List.append_assoc]; rfl,
          show t.length + 2 = (t ++ [(10 : Nat), 13]).length from by simp]
        exact List.drop_left _ _
      have hlen : (t ++ [10, 13, 10]).length = t.length + 3 := by simp
      rcases hf : findFrom line_delimiter (t ++ [10, 13, 10]) 0 with _ | ⟨i, e⟩
      · exfalso
        have hnone := findFrom_none _ _ _ hf t.length (by omega) (by omega)
        rw [hd3, ld_at_lf] at hnone
        simp at hnone
      · obtain ⟨-, hi_len, hm, hie', he_len, hmin⟩ := findFrom_some _ _ _ _ _ hf
        obtain hsh := ld_shape _ _ hm
        have he1 : 1 ≤ e - i := by rcases hsh with ⟨h1, -⟩ | ⟨h1, -⟩ <;> omega
        have he2 : e - i ≤ 2 := by rcases hsh with ⟨h1, -⟩ | ⟨h1, -⟩ <;> omega
        have hcons := reSplit_cons _ i e hf (by omega)
        by_cases hcase : e ≤ t.length
        · have hrem : (t ++ [10, 13, 10]).drop e = t.drop e ++ [10, 13, 10] :=
            List.drop_append_of_le_length hcase
          obtain ⟨ps, hps⟩ := ih ((t ++ [10, 13, 10]).drop e)
            (by rw [List.length_drop]; omega) (Or.inr ⟨t.drop e, hrem⟩)
          exact ⟨(t ++ [10, 13, 10]).take i :: ps, by rw [hcons, hps]; rfl⟩
        · by_cases hcase2 : e = t.length + 1
          · refine ⟨[(t ++ [10, 13, 10]).take i], ?_⟩
            rw [hcons, hcase2, hd2',
              show reSplit line_delimiter [13, 10] = [[], []] from by decide]
            rfl
          · by_cases hcase3 : e = t.length + 2
            · refine ⟨[(t ++ [10, 13, 10]).take i], ?_⟩
              rw [hcons, hcase3, hd1',
                show reSplit line_delimiter [10] = [[], []] from by decide]
              rfl
            · exfalso
              have he : e = t.length + 3 := by omega
              have hi : t.length < i := by omega
              have hnone := hmin t.length (by omega) hi
              rw [hd3, ld_at_lf] at hnone
              simp at hnone

theorem until_block_ends (b : ReceiveBuffer) (out : List Nat)
    (st : ReceiveBuffer)
    (h : maybe_extract_until_delimiter b default_delimiter = (some out, st)) :
    (∃ u, out = u ++ [10, 10]) ∨ (∃ u, out = u ++ [10, 13, 10]) := by
  rw [until_eq] at h
  rcases hf : findFrom default_delimiter b._data
      (resumePos b default_delimiter) with _ | ⟨i, e⟩
  · rw [hf] at h; simp at h
  · rw [hf] at h
    simp only [Prod.mk.injEq, Option.some.injEq] at h
    obtain ⟨hout, -⟩ := h
    obtain ⟨h1, hi_len, hm, hie, he_len, -⟩ := findFrom_some _ _ _ _ _ hf
    have hrs := resumePos_ge_start b default_delimiter
    rcases dd_shape _ _ hm with ⟨h2, ht⟩ | ⟨h3, ht⟩
    · left
      have hlen2 : ((b._data.drop i).take 2).length = 2 := by rw [ht]; rfl
      simp only [List.length_take, List.length_drop] at hlen2
      have hstart_i : b._start ≤ i := by omega
      have htakei : (b._data.take i).length = i := by
        rw [List.length_take]; omega
      refine ⟨(b._data.take i).drop b._start, ?_⟩
      have he : e = i + 2 := by omega
      rw [← hout, he, List.take_add,
        List.drop_append_of_le_length (by omega), ht]
    · right
      have hlen3 : ((b._data.drop i).take 3).length = 3 := by rw [ht]; rfl
      simp only [List.length_take, List.length_drop] at hlen3
      have hstart_i : b._start ≤ i := by omega
      have htakei : (b._data.take i).length = i := by
        rw [List.length_take]; omega
      refine ⟨(b._data.take i).drop b._start, ?_⟩
      have he : e = i + 3 := by omega
      rw [← hout, he, List.take_add,
        List.drop_append_of_le_length (by omega), ht]

theorem lines_no_assert (b2 : ReceiveBuffer) :
    (maybe_extract_lines b2).1 ≠ LinesResult.assertFail := by
  unfold maybe_extract_lines
  split
  · simp
  · split
    · simp
    · rcases hu : maybe_extract_until_delimiter b2 default_delimiter with ⟨r, b1⟩
      rcases r with _ | out
      · simp
      · obtain ⟨ps, hps⟩ := split_ends out.length out (le_refl _)
          (until_block_ends b2 out b1 hu)
        have hsplit : ps ++ [[], []] = (ps ++ [[]]) ++ ([[]] : List (List Nat)) := by
          rw [List.append_assoc]; rfl
        have hc1 : (reSplit line_delimiter out).getLast? = some [] := by
          rw [hps, hsplit]
          exact List.getLast?_concat _
        have hc2 : (reSplit line_delimiter out).dropLast.getLast? = some [] := by
          rw [hps, hsplit, List.dropLast_concat]
          exact List.getLast?_concat _
        show (if (reSplit line_delimiter out).getLast? = some [] ∧
            (reSplit line_delimiter out).dropLast.getLast? = some [] then
            (LinesResult.lines (reSplit line_delimiter out).dropLast.dropLast, b1)
          else (LinesResult.assertFail, b1)).1 ≠ LinesResult.assertFail
        rw [if_pos ⟨hc1, hc2⟩]
        simp

/-- C9: every block returned by `maybe_extract_until_delimiter` under the
default blank-line pattern ends in a matched `b"\n\n"` or `b"\n\r\n"`, so
splitting it on the line delimiter `b"\r?\n"` always produces a list whose
last two fragments are empty; hence the assertion in `maybe_extract_lines`
can never fail, whatever bytes the buffer holds. -/
theorem c9_assertion_always_holds (b : ReceiveBuffer) (out : List Nat)
    (st : ReceiveBuffer)
    (h : maybe_extract_until_delimiter b default_delimiter = (some out, st)) :
    (∃ ps, reSplit line_delimiter out = ps ++ [[], []]) ∧
    ∀ b2 : ReceiveBuffer, (maybe_extract_lines b2).1 ≠ LinesResult.assertFail :=
  ⟨split_ends out.length out (le_refl _) (until_block_ends b out st h),
   fun b2 => lines_no_assert b2⟩

/-! ### C8: observational transparency of compress -/

theorem red_canon (b : ReceiveBuffer) : red (canon b) = red b := by
  obtain ⟨data, start, la, delim⟩ := b
  show Red.mk ((data.drop start).drop 0)
      ((la - (start : Int)) - ((0 : Nat) : Int)) delim =
    Red.mk (data.drop start) (la - (start : Int)) delim
  rw [List.drop_zero]
  norm_num

theorem red_compress (b : ReceiveBuffer) : red b.compress = red b := by
  obtain ⟨data, start, la, delim⟩ := b
  unfold ReceiveBuffer.compress
  split
  · show Red.mk ((data.drop start).drop (start - start))
        ((la - (start : Int)) - ((start - start : Nat) : Int)) delim =
      Red.mk (data.drop start) (la - (start : Int)) delim
    rw [Nat.sub_self, List.drop_zero]
    norm_num
  · rfl

theorem findFromAux_shift (pat : Pattern) (data : List Nat) (s : Nat) :
    ∀ (fuel p : Nat), findFromAux pat data (s + p) fuel =
      (findFromAux pat (data.drop s) p fuel).map
        (fun pr => (s + pr.1, s + pr.2)) := by
  intro fuel
  induction fuel with
  | zero => intro p; rfl
  | succ n ih =>
    intro p
    rw [findFromAux, findFromAux]
    have hd : data.drop (s + p) = (data.drop s).drop p := by
      rw [List.drop_drop, Nat.add_comm]
    rw [hd]
    cases hm : reMatch pat ((data.drop s).drop p) with
    | some l =>
      show some (s + p, s + p + l) = some (s + p, s + (p + l))
      rw [Nat.add_assoc]
    | none =>
      show findFromAux pat data (s + p + 1) n =
        (findFromAux pat (data.drop s) (p + 1) n).map
          (fun pr => (s + pr.1, s + pr.2))
      rw [show s + p + 1 = s + (p + 1) from by omega]
      exact ih (p + 1)

theorem findFrom_shift (pat : Pattern) (data : List Nat) (s p : Nat)
    (hs : s ≤ data.length) :
    findFrom pat data (s + p) =
      (findFrom pat (data.drop s) p).map (fun pr => (s + pr.1, s + pr.2)) := by
  unfold findFrom
  rw [show min (s + p) data.length = s + min p ((data.drop s).length) from by
      rw [List.length_drop]; omega,
    show data.length + 1 - (s + min p ((data.drop s).length)) =
      (data.drop s).length + 1 - min p ((data.drop s).length) from by
      rw [List.length_drop]; omega]
  exact findFromAux_shift pat data s _ _

theorem resumePos_canon (b : ReceiveBuffer) (d : Pattern) :
    resumePos b d = b._start + resumePos (canon b) d := by
  unfold resumePos
  have hdel : (canon b)._delimiter = b._delimiter := rfl
  rw [hdel]
  split
  · have key : max (b._start : Int) (b._looked_at - srcLen d + 1) =
        (b._start : Int) +
          max 0 ((b._looked_at - (b._start : Int)) - srcLen d + 1) := by
      rcases le_total (b._looked_at - srcLen d + 1) ((b._start : Int)) with hc | hc
      · rw [max_eq_left hc, max_eq_left (by omega), add_zero]
      · rw [max_eq_right hc, max_eq_right (by omega)]
        ring
    rw [key, Int.toNat_add (by positivity) (le_max_left _ _), Int.toNat_natCast]
    rfl
  · show b._start = b._start + 0
    omega

theorem atMost_canon (b : ReceiveBuffer) (n : Nat) :
    (maybe_extract_at_most b n).1 = (maybe_extract_at_most (canon b) n).1 ∧
    red (maybe_extract_at_most b n).2 =
      red (maybe_extract_at_most (canon b) n).2 := by
  rw [atMost_eq b n, atMost_eq (canon b) n]
  have hout : ((canon b)._data.drop (canon b)._start).take n =
      (b._data.drop b._start).take n := by
    show ((b._data.drop b._start).drop 0).take n = _
    rw [List.drop_zero]
  rw [hout]
  split
  · exact ⟨rfl, (red_canon b).symm⟩
  · constructor
    · rfl
    · show Red.mk
        (b._data.drop (b._start + ((b._data.drop b._start).take n).length))
        (b._looked_at - (b._start + ((b._data.drop b._start).take n).length))
        b._delimiter =
      Red.mk
        ((b._data.drop b._start).drop
          (0 + ((b._data.drop b._start).take n).length))
        ((b._looked_at - b._start) -
          (0 + ((b._data.drop b._start).take n).length))
        b._delimiter
      congr 1
      · rw [Nat.zero_add, List.drop_drop, Nat.add_comm]
      · ring

theorem until_canon (b : ReceiveBuffer) (d : Pattern) (hInv : Inv b) :
    (maybe_extract_until_delimiter b d).1 =
      (maybe_extract_until_delimiter (canon b) d).1 ∧
    red (maybe_extract_until_delimiter b d).2 =
      red (maybe_extract_until_delimiter (canon b) d).2 := by
  rw [until_eq b d, until_eq (canon b) d]
  rw [show (canon b)._data = b._data.drop b._start from rfl]
  rw [resumePos_canon b d]
  rw [findFrom_shift d b._data b._start (resumePos (canon b) d) hInv.1]
  cases hf : findFrom d (b._data.drop b._start) (resumePos (canon b) d) with
  | none =>
    constructor
    · rfl
    · show Red.mk (b._data.drop b._start) ((b._data.length : Int) - b._start)
          d =
        Red.mk ((b._data.drop b._start).drop (canon b)._start)
          (((b._data.drop b._start).length : Int) - (canon b)._start) d
      rw [show (canon b)._start = 0 from rfl, List.drop_zero, List.length_drop,
        Int.ofNat_sub hInv.1]
      simp
  | some pr =>
    rcases pr with ⟨i, e⟩
    constructor
    · show some ((b._data.take (b._start + e)).drop b._start) =
        some (((b._data.drop b._start).take e).drop 0)
      rw [List.drop_zero, List.drop_take, Nat.add_sub_cancel_left]
    · show Red.mk (b._data.drop (b._start + e))
          (b._looked_at - (b._start + e)) d =
        Red.mk ((b._data.drop b._start).drop e)
          (((b._looked_at - b._start) : Int) - e) d
      congr 1
      · rw [List.drop_drop, Nat.add_comm]
      · ring

theorem iadd_canon (b : ReceiveBuffer) (c : List Nat) (hInv : Inv b) :
    red (b.iadd c) = red ((canon b).iadd c) := by
  obtain ⟨h1, -⟩ := hInv
  obtain ⟨data, start, la, delim⟩ := b
  show Red.mk ((data ++ c).drop start) (la - (start : Int)) delim =
    Red.mk (((data.drop start) ++ c).drop 0)
      ((la - (start : Int)) - ((0 : Nat) : Int)) delim
  rw [List.drop_zero, List.drop_append_of_le_length h1]
  norm_num

theorem if_pair_fst {α β : Type} (P : Prop) [Decidable P] (x y : α) (u v : β) :
    (if P then (x, u) else (y, v)).1 = if P then x else y := by
  split <;> rfl

theorem if_pair_snd {α β : Type} (P : Prop) [Decidable P] (x y : α) (u v : β) :
    (if P then (x, u) else (y, v)).2 = if P then u else v := by
  split <;> rfl

theorem lines_canon (b : ReceiveBuffer) (hInv : Inv b) :
    (maybe_extract_lines b).1 = (maybe_extract_lines (canon b)).1 ∧
    red (maybe_extract_lines b).2 = red (maybe_extract_lines (canon b)).2 := by
  obtain ⟨hu1, hu2⟩ := until_canon b default_delimiter hInv
  unfold maybe_extract_lines
  rw [show ((canon b)._data.drop (canon b)._start).take 2 =
    (b._data.drop b._start).take 2 from by
      show ((b._data.drop b._start).drop 0).take 2 = _
      rw [List.drop_zero]]
  by_cases hc1 : (b._data.drop b._start).take 2 = [13, 10]
  · rw [if_pos hc1, if_pos hc1]
    refine ⟨rfl, ?_⟩
    show Red.mk (b._data.drop (b._start + 2)) (b._looked_at - (b._start + 2))
        b._delimiter =
      Red.mk ((b._data.drop b._start).drop (0 + 2))
        ((b._looked_at - b._start) - ((0 + 2 : Nat) : Int)) b._delimiter
    congr 1
    · rw [Nat.zero_add, List.drop_drop, Nat.add_comm]
    · push_cast
      ring
  · rw [if_neg hc1, if_neg hc1]
    have hc2b : ¬(b._start < b._data.length ∧
        pyIntEqBytes (b._data.getD b._start 0) [10] = true) := by
      rintro ⟨-, hh⟩
      simp [pyIntEqBytes] at hh
    have hc2c : ¬((canon b)._start < (canon b)._data.length ∧
        pyIntEqBytes ((canon b)._data.getD (canon b)._start 0) [10] = true) := by
      rintro ⟨-, hh⟩
      simp [pyIntEqBytes] at hh
    rw [if_neg hc2b, if_neg hc2c]
    rcases hub : maybe_extract_until_delimiter b default_delimiter with ⟨rb, b1⟩
    rcases huc : maybe_extract_until_delimiter (canon b) default_delimiter
      with ⟨rc, c1⟩
    rw [hub, huc] at hu1 hu2
    have hr : rb = rc := hu1
    have hstates : red b1 = red c1 := hu2
    subst hr
    cases rb with
    | none => exact ⟨rfl, hstates⟩
    | some out =>
      constructor
      · show (if (reSplit line_delimiter out).getLast? = some [] ∧
            (reSplit line_delimiter out).dropLast.getLast? = some [] then
            (LinesResult.lines (reSplit line_delimiter out).dropLast.dropLast,
              b1)
          else (LinesResult.assertFail, b1)).1 =
          (if (reSplit line_delimiter out).getLast? = some [] ∧
            (reSplit line_delimiter out).dropLast.getLast? = some [] then
            (LinesResult.lines (reSplit line_delimiter out).dropLast.dropLast,
              c1)
          else (LinesResult.assertFail, c1)).1
        rw [if_pair_fst, if_pair_fst]
      · show red (if (reSplit line_delimiter out).getLast? = some [] ∧
            (reSplit line_delimiter out).dropLast.getLast? = some [] then
            (LinesResult.lines (reSplit line_delimiter out).dropLast.dropLast,
              b1)
          else (LinesResult.assertFail, b1)).2 =
          red (if (reSplit line_delimiter out).getLast? = some [] ∧
            (reSplit line_delimiter out).dropLast.getLast? = some [] then
            (LinesResult.lines (reSplit line_delimiter out).dropLast.dropLast,
              c1)
          else (LinesResult.assertFail, c1)).2
        rw [if_pair_snd, if_pair_snd, ite_self, ite_self]
        exact hstates

theorem op_canon (b : ReceiveBuffer) (op : Op) (hInv : Inv b) :
    opResult b op = opResult (canon b) op ∧
    red (applyOp b op) = red (applyOp (canon b) op) := by
  cases op with
  | add c => exact ⟨rfl, iadd_canon b c hInv⟩
  | atMost n =>
    obtain ⟨h1, h2⟩ := atMost_canon b n
    exact ⟨congrArg OpResult.bytesOpt h1, h2⟩
  | untilDelim d =>
    obtain ⟨h1, h2⟩ := until_canon b d hInv
    exact ⟨congrArg OpResult.bytesOpt h1, h2⟩
  | extractLines =>
    obtain ⟨h1, h2⟩ := lines_canon b hInv
    exact ⟨congrArg OpResult.linesRes h1, h2⟩
  | compressOp =>
    refine ⟨rfl, ?_⟩
    show red b.compress = red (canon b).compress
    rw [red_compress, red_compress, red_canon]

theorem results_red : ∀ (ops : List Op) (b1 b2 : ReceiveBuffer),
    red b1 = red b2 → Inv b1 → Inv b2 → results b1 ops = results b2 ops := by
  intro ops
  induction ops with
  | nil => intros; rfl
  | cons op ops ih =>
    intro b1 b2 hred h1 h2
    have hc : canon b1 = canon b2 := by unfold canon; rw [hred]
    obtain ⟨ho1, hr1⟩ := op_canon b1 op h1
    obtain ⟨ho2, hr2⟩ := op_canon b2 op h2
    show opResult b1 op :: results (applyOp b1 op) ops =
      opResult b2 op :: results (applyOp b2 op) ops
    rw [ho1, ho2, hc]
    congr 1
    refine ih _ _ ?_ (inv_applyOp b1 op h1) (inv_applyOp b2 op h2)
    rw [hr1, hr2, hc]

/-- C8: inserting a `compress()` call at any point in a call sequence never
changes the values returned by the subsequent calls (every reachable state
arises as `runOps ops1`, and the remaining calls `ops2` return the same
results with or without the inserted compress); and `compress` physically
removes `storage[0:start]`, zeroing `start` and subtracting the old `start`
from `searched`, exactly when `start` exceeds half of `len(storage)`, and
is a no-op otherwise. -/
theorem c8_compress_transparency (ops1 ops2 : List Op) :
    results ((runOps ops1).compress) ops2 = results (runOps ops1) ops2 ∧
    ∀ b : ReceiveBuffer, b.compress =
      if b._data.length / 2 < b._start then
        ⟨b._data.drop b._start, 0, b._looked_at - b._start, b._delimiter⟩
      else b := by
  constructor
  · exact results_red ops2 _ _ (red_compress _)
      (inv_compress _ (inv_runOps ops1)) (inv_runOps ops1)
  · intro b
    unfold ReceiveBuffer.compress
    split
    · rw [Nat.sub_self]
    · rfl

/-- C8 (counterexample): the claim says compress rebases `searched` to
`old_value - old_start` "floored at 0"; the code does not floor.  After
appending `b"aaaa"` and extracting 3 bytes the state has `start = 3`,
`searched = 0`; `compress` fires (3 > 4 // 2) and sets `searched = -3`,
not the floored value `max(0, 0 - 3) = 0`. -/
theorem c8_counterexample :
    ((runOps [.add [97, 97, 97, 97], .atMost 3]).compress)._looked_at =
      (-3 : Int) ∧
    ((runOps [.add [97, 97, 97, 97], .atMost 3]).compress)._looked_at ≠
      max 0 ((runOps [.add [97, 97, 97, 97], .atMost 3])._looked_at -
        ((runOps [.add [97, 97, 97, 97], .atMost 3])._start : Int)) := by
  decide

/-! ### C10: scanning cost of repeated no-match polls -/

theorem findFromAuxCost_of_none (pat : Pattern) (data : List Nat) :
    ∀ (fuel pos : Nat), findFromAux pat data pos fuel = none →
      findFromAuxCost pat data pos fuel = fuel := by
  intro fuel
  induction fuel with
  | zero => intro pos _; rfl
  | succ n ih =>
    intro pos h
    rw [findFromAux] at h
    rw [findFromAuxCost]
    cases hm : reMatch pat (data.drop pos) with
    | some l => rw [hm] at h; simp at h
    | none =>
      rw [hm] at h
      rw [ih (pos + 1) h]
      show 1 + n = n + 1
      omega

theorem searchCost_of_none (b : ReceiveBuffer) (d : Pattern)
    (h : findFrom d b._data (resumePos b d) = none) :
    searchCost b d =
      b._data.length + 1 - min (resumePos b d) b._data.length :=
  findFromAuxCost_of_none d b._data _ _ h

theorem poll_cost_bound (b : ReceiveBuffer) (d : Pattern)
    (hf : findFrom d b._data (resumePos b d) = none)
    (hla0 : 0 ≤ b._looked_at)
    (hdel : d = b._delimiter ∨ b._looked_at = 0) :
    searchCost b d ≤
      (b._data.length - b._looked_at.toNat) + srcLen d + 1 := by
  rw [searchCost_of_none b d hf]
  rcases hdel with hd | h0
  · have hres : b._looked_at.toNat + 1 - srcLen d ≤ resumePos b d := by
      unfold resumePos
      rw [if_pos hd]
      have h1 : b._looked_at - srcLen d + 1 ≤
          max (b._start : Int) (b._looked_at - srcLen d + 1) := le_max_right _ _
      have h2 : (0 : Int) ≤ max (b._start : Int)
          (b._looked_at - srcLen d + 1) :=
        le_trans (Int.ofNat_nonneg _) (le_max_left _ _)
      omega
    omega
  · rw [h0]
    show b._data.length + 1 - min (resumePos b d) b._data.length ≤
      b._data.length - (0 : Int).toNat + srcLen d + 1
    omega

theorem c10_aux (P : Pattern) : ∀ (ops : List Op) (b : ReceiveBuffer),
    onlyAddsPolls P ops = true → allNoMatch b ops = true →
    b._start = 0 → 0 ≤ b._looked_at →
    b._looked_at ≤ (b._data.length : Int) →
    (b._delimiter = P ∨ b._looked_at = 0) →
    totalScanCost b ops ≤
      appendedTotal ops + (b._data.length - b._looked_at.toNat) +
        pollCount ops * (srcLen P + 1) := by
  intro ops
  induction ops with
  | nil => intro b _ _ _ _ _ _; exact Nat.zero_le _
  | cons op ops ih =>
    intro b ho ha hs0 hla0 hlalen hdel
    cases op with
    | add c =>
      have ho' : onlyAddsPolls P ops = true := ho
      have ha' : allNoMatch (b.iadd c) ops = true := by
        have : allNoMatch b (.add c :: ops) =
            (true && allNoMatch (applyOp b (.add c)) ops) := rfl
        rw [this, Bool.true_and] at ha
        exact ha
      have hbound := ih (b.iadd c) ho' ha' hs0 hla0
        (by show b._looked_at ≤ ((b._data ++ c).length : Int)
            rw [List.length_append]; push_cast; omega)
        (by rcases hdel with h | h
            · exact Or.inl h
            · exact Or.inr h)
      show 0 + totalScanCost (b.iadd c) ops ≤
        c.length + appendedTotal ops +
          (b._data.length - b._looked_at.toNat) +
          pollCount ops * (srcLen P + 1)
      have hlen : (b.iadd c)._data.length = b._data.length + c.length := by
        show (b._data ++ c).length = _
        rw [List.length_append]
      rw [hlen, show (b.iadd c)._looked_at = b._looked_at from rfl] at hbound
      have hle : b._looked_at.toNat ≤ b._data.length := by omega
      omega
    | atMost n => simp [onlyAddsPolls] at ho
    | extractLines => simp [onlyAddsPolls] at ho
    | compressOp => simp [onlyAddsPolls] at ho
    | untilDelim d =>
      have hod : d = P ∧ onlyAddsPolls P ops = true := by
        have : onlyAddsPolls P (.untilDelim d :: ops) =
            (decide (d = P) && onlyAddsPolls P ops) := rfl
        rw [this] at ho
        simpa using ho
      obtain ⟨hdP, ho'⟩ := hod
      have ha2 : (decide ((maybe_extract_until_delimiter b d).1 = none) &&
          allNoMatch (applyOp b (.untilDelim d)) ops) = true := ha
      rw [Bool.and_eq_true, decide_eq_true_eq] at ha2
      obtain ⟨hnone, ha'⟩ := ha2
      have hff : findFrom d b._data (resumePos b d) = none := by
        rw [until_eq] at hnone
        rcases hf : findFrom d b._data (resumePos b d) with _ | ⟨i, e⟩
        · rfl
        · rw [hf] at hnone
          exact Option.noConfusion hnone
      have hstate : (maybe_extract_until_delimiter b d).2 =
          ⟨b._data, b._start, (b._data.length : Int), d⟩ := by
        rw [until_eq, hff]
      have hcost := poll_cost_bound b d hff hla0
        (by rcases hdel with h | h
            · exact Or.inl (hdP.trans h.symm)
            · exact Or.inr h)
      have hbound := ih (maybe_extract_until_delimiter b d).2 ho'
        (ha')
        (by rw [hstate]; exact hs0)
        (by rw [hstate]; exact Int.ofNat_nonneg _)
        (by rw [hstate])
        (by rw [hstate]; exact Or.inl hdP)
      rw [hstate] at hbound
      show searchCost b d + totalScanCost (maybe_extract_until_delimiter b d).2
          ops ≤
        appendedTotal ops + (b._data.length - b._looked_at.toNat) +
          (pollCount ops + 1) * (srcLen P + 1)
      rw [hstate]
      have hz : b._data.length - ((b._data.length : Int)).toNat = 0 := by
        rw [Int.toNat_natCast]
        omega
      rw [hz] at hbound
      have hsrc : srcLen d = srcLen P := by rw [hdP]
      have hmul : (pollCount ops + 1) * (srcLen P + 1) =
          pollCount ops * (srcLen P + 1) + (srcLen P + 1) := by ring
      omega

/-- C10 (amended): over any lifetime consisting of appends and repeated
`maybe_extract_until_delimiter` polls with one fixed pattern that all
return the no-match signal, the total scanning work (positions tried, one
pattern attempt each) is at most the total number of bytes ever appended
plus `len(pattern) + 1` per poll: each appended byte is scanned once plus
a constant-sized tail rescan per call.  The total is not bounded by a
constant times the appended bytes alone, because every poll re-examines
up to `len(pattern) - 1` trailing bytes even when nothing was appended. -/
theorem c10_amortized_scan_bound (P : Pattern) (ops : List Op)
    (ho : onlyAddsPolls P ops = true)
    (ha : allNoMatch .init ops = true) :
    totalScanCost .init ops ≤
      appendedTotal ops + pollCount ops * (srcLen P + 1) := by
  have h := c10_aux P ops .init ho ha rfl (le_refl 0) (le_refl 0)
    (Or.inr rfl)
  simpa using h

/-- C10 (witness): the amended bound at a concrete lifetime: append the
single byte `b"x"`, then poll the default pattern twice with no match. -/
theorem c10_amortized_scan_bound_witness :
    onlyAddsPolls default_delimiter [.add [120],
      .untilDelim default_delimiter, .untilDelim default_delimiter] = true ∧
    allNoMatch .init [.add [120], .untilDelim default_delimiter,
      .untilDelim default_delimiter] = true ∧
    totalScanCost .init [.add [120], .untilDelim default_delimiter,
        .untilDelim default_delimiter] ≤
      appendedTotal [.add [120], .untilDelim default_delimiter,
        .untilDelim default_delimiter] +
      pollCount [.add [120], .untilDelim default_delimiter,
        .untilDelim default_delimiter] * (srcLen default_delimiter + 1) :=
  ⟨by decide, by decide,
   c10_amortized_scan_bound default_delimiter _ (by decide) (by decide)⟩

theorem rep_apply :
    applyOp ⟨[120], 0, 1, default_delimiter⟩
        (.untilDelim default_delimiter) =
      ⟨[120], 0, 1, default_delimiter⟩ := by decide

theorem rep_cost : ∀ n : Nat,
    totalScanCost ⟨[120], 0, 1, default_delimiter⟩
      (List.replicate n (.untilDelim default_delimiter)) = 2 * n := by
  intro n
  induction n with
  | zero => rfl
  | succ k ihk =>
    rw [List.replicate_succ]
    show searchCost ⟨[120], 0, 1, default_delimiter⟩ default_delimiter +
      totalScanCost (applyOp ⟨[120], 0, 1, default_delimiter⟩
        (.untilDelim default_delimiter))
        (List.replicate k (.untilDelim default_delimiter)) = 2 * (k + 1)
    rw [rep_apply, ihk,
      show searchCost ⟨[120], 0, 1, default_delimiter⟩ default_delimiter = 2
        from by decide]
    omega

theorem rep_noMatch : ∀ n : Nat,
    allNoMatch ⟨[120], 0, 1, default_delimiter⟩
      (List.replicate n (.untilDelim default_delimiter)) = true := by
  intro n
  induction n with
  | zero => rfl
  | succ k ihk =>
    rw [List.replicate_succ]
    show (decide ((maybe_extract_until_delimiter
        ⟨[120], 0, 1, default_delimiter⟩ default_delimiter).1 = none) &&
      allNoMatch (applyOp ⟨[120], 0, 1, default_delimiter⟩
        (.untilDelim default_delimiter))
        (List.replicate k (.untilDelim default_delimiter))) = true
    rw [rep_apply, ihk, Bool.and_true]
    decide

theorem rep_only : ∀ n : Nat,
    onlyAddsPolls default_delimiter
      (List.replicate n (.untilDelim default_delimiter)) = true := by
  intro n
  induction n with
  | zero => rfl
  | succ k ihk =>
    rw [List.replicate_succ]
    show (decide (default_delimiter = default_delimiter) &&
      onlyAddsPolls default_delimiter
        (List.replicate k (.untilDelim default_delimiter))) = true
    rw [ihk, Bool.and_true]
    decide

theorem rep_appended : ∀ n : Nat,
    appendedTotal (List.replicate n (.untilDelim default_delimiter)) = 0 := by
  intro n
  induction n with
  | zero => rfl
  | succ k ihk =>
    rw [List.replicate_succ]
    show appendedTotal
      (List.replicate k (.untilDelim default_delimiter)) = 0
    exact ihk

/-- C10 (counterexample): the claim that the total bytes examined across a
lifetime of no-match polls is bounded by some constant times the total
bytes ever appended, independent of the number of calls, is false: after
appending the single byte `b"x"`, each poll rescans that byte (and the
empty tail position), so `c + 1` polls cost `2(c + 1) > c · 1` for every
candidate constant `c`. -/
theorem c10_counterexample :
    ¬ ∃ c : Nat, ∀ ops : List Op,
      onlyAddsPolls default_delimiter ops = true →
      allNoMatch .init ops = true →
      totalScanCost .init ops ≤ c * appendedTotal ops := by
  rintro ⟨c, hc⟩
  have h := hc (Op.add [120] ::
    List.replicate (c + 1) (.untilDelim default_delimiter)) ?_ ?_
  · rw [List.replicate_succ] at h
    have hc1 : totalScanCost .init (Op.add [120] ::
        Op.untilDelim default_delimiter ::
        List.replicate c (.untilDelim default_delimiter)) =
        2 + 2 * c := by
      show 0 + (searchCost ⟨[120], 0, 0, default_delimiter⟩ default_delimiter +
        totalScanCost (applyOp ⟨[120], 0, 0, default_delimiter⟩
          (.untilDelim default_delimiter))
          (List.replicate c (.untilDelim default_delimiter))) = 2 + 2 * c
      rw [show applyOp ⟨[120], 0, 0, default_delimiter⟩
          (.untilDelim default_delimiter) =
        ⟨[120], 0, 1, default_delimiter⟩ from by decide]
      rw [rep_cost c,
        show searchCost ⟨[120], 0, 0, default_delimiter⟩ default_delimiter = 2
          from by decide]
      omega
    have hc2 : appendedTotal (Op.add [120] ::
        Op.untilDelim default_delimiter ::
        List.replicate c (.untilDelim default_delimiter)) = 1 := by
      show 1 + appendedTotal (Op.untilDelim default_delimiter ::
        List.replicate c (.untilDelim default_delimiter)) = 1
      rw [show appendedTotal (Op.untilDelim default_delimiter ::
          List.replicate c (.untilDelim default_delimiter)) =
        appendedTotal (List.replicate c (.untilDelim default_delimiter))
        from rfl, rep_appended c]
    rw [hc1, hc2] at h
    omega
  · show onlyAddsPolls default_delimiter
      (List.replicate (c + 1) (.untilDelim default_delimiter)) = true
    exact rep_only (c + 1)
  · rw [List.replicate_succ]
    show (decide ((maybe_extract_until_delimiter
        ⟨[120], 0, 0, default_delimiter⟩ default_delimiter).1 = none) &&
      allNoMatch (applyOp ⟨[120], 0, 0, default_delimiter⟩
        (.untilDelim default_delimiter))
        (List.replicate c (.untilDelim default_delimiter))) = true
    rw [show applyOp ⟨[120], 0, 0, default_delimiter⟩
        (.untilDelim default_delimiter) =
      ⟨[120], 0, 1, default_delimiter⟩ from by decide]
    rw [rep_noMatch c, Bool.and_true]
    decide

/-- C9 (witness): the contract instantiated at the concrete buffer holding
`b"\n\n"`, whose delimiter extraction returns the block `b"\n\n"`. -/
theorem c9_witness :
    maybe_extract_until_delimiter ⟨[10, 10], 0, 0, default_delimiter⟩
        default_delimiter =
      (some [10, 10], ⟨[10, 10], 2, 0, default_delimiter⟩) ∧
    ((∃ ps, reSplit line_delimiter [10, 10] = ps ++ [[], []]) ∧
     ∀ b2 : ReceiveBuffer,
       (maybe_extract_lines b2).1 ≠ LinesResult.assertFail) :=
  ⟨by decide, c9_assertion_always_holds ⟨[10, 10], 0, 0, default_delimiter⟩
    [10, 10] ⟨[10, 10], 2, 0, default_delimiter⟩ (by decide)⟩

end H11
